import Mathlib

/-!
Shallow embedding of `src/day42/tlfsoftmax.py`: a Triton row-wise softmax
kernel (`_softmax_kernel`) together with the occupancy-aware launch planner
in the host wrapper `softmax`.

Real values are modelled exactly by `ℚ`; the exponential is an abstract
function `E : ℚ → ℚ` (every statement proved here holds for any `E`, so in
particular for the real exponential).  A lane of the on-chip block is an
`Option ℚ`, with `none` playing the role of `-inf` (the `other=float('-inf')`
fill of the masked `tl.load`).  Device memory is a total map `Nat → ℚ`.
-/

namespace TLFSoftmax

abbrev Val := ℚ

/-- A flat device-memory buffer: address to value. -/
abbrev Mem := Nat → Val

/-- One lane of the on-chip block; `none` models `-inf`. -/
abbrev Cell := Option Val

/-! ### The kernel body (`_softmax_kernel`), one row -/

/-- `tl.load(input_ptrs, mask=col_offsets < n_cols, other=float('-inf'))`:
lane `j` of the `B`-wide block holds `row[j]` when `j < row.length`, and
`-inf` (`none`) on the masked padding lanes. -/
def padRow (row : List Val) (B : Nat) : List Cell :=
  (List.range B).map (fun j => row[j]?)

/-- Max of two lanes, with `-inf` as the identity. -/
def cmax : Cell → Cell → Cell
  | none, b => b
  | some x, none => some x
  | some x, some y => some (max x y)

/-- `tl.max(row, axis=0)` over the whole block. -/
def blockMax (l : List Cell) : Cell := l.foldl cmax none

/-- `exp(v - m)` for one lane: a `-inf` lane yields `exp(-inf) = 0`.
(The case of a finite lane with `-inf` max cannot occur, since the max is
taken over the same block; it is mapped to `0`.) -/
def expSub (E : Val → Val) : Cell → Cell → Val
  | some m, some v => E (v - m)
  | _, _ => 0

/-- The kernel body for one row: masked load into a `B`-wide block,
subtract the block max, exponentiate, sum, divide, and the masked store
(`mask = col_offsets < n_cols`) keeps exactly the first `row.length` lanes. -/
def kernelRow (E : Val → Val) (row : List Val) (B : Nat) : List Val :=
  let padded := padRow row B
  let m := blockMax padded
  let numer := padded.map (expSub E m)
  let denom := numer.sum
  (numer.map (fun v => v / denom)).take row.length

/-! ### Reference row softmax, stated from the spec's words:
`exp(x[j] - max_j x[j]) / (sum_j exp(x[j] - max_j x[j]))`. -/

/-- The maximum of a row (reference side). -/
def refMax (row : List Val) : Val := row.foldl max (row.headD 0)

/-- The reference row-wise softmax, written from the spec's formula. -/
def refSoftmaxRow (E : Val → Val) (row : List Val) : List Val :=
  row.map (fun v => E (v - refMax row) / (row.map (fun u => E (u - refMax row))).sum)

/-! ### Device memory: reads, writes, the per-instance row loop -/

/-- Write one value at one address. -/
def wr (m : Mem) (a : Nat) (v : Val) : Mem := fun p => if p = a then v else m p

/-- Write a list of values at consecutive addresses starting at `base`. -/
def writeSeq (m : Mem) (base : Nat) : List Val → Mem
  | [] => m
  | v :: vs => writeSeq (wr m base v) (base + 1) vs

/-- Read `n` consecutive values starting at `base`. -/
def readRow (m : Mem) (base n : Nat) : List Val :=
  (List.range n).map (fun j => m (base + j))

/-- Fuel-structured unfolding of `tl.range(start, n, step)`.  Fuel `n`
suffices whenever `step ≥ 1`. -/
def rowLoopGo : Nat → Nat → Nat → Nat → List Nat
  | 0, _, _, _ => []
  | fuel + 1, start, step, n =>
    if start < n then start :: rowLoopGo fuel (start + step) step n else []

/-- The rows visited by `for row_idx in tl.range(start, n_rows, step)`:
`start, start+step, start+2*step, …` below `n`. -/
def rowLoop (start step n : Nat) : List Nat := rowLoopGo n start step n

/-- The values the kernel stores for row `r`: the kernel body applied to the
`n_cols` input elements at `r * in_stride`. -/
def rowVals (E : Val → Val) (inp : Mem) (in_stride n_cols B r : Nat) : List Val :=
  kernelRow E (readRow inp (r * in_stride) n_cols) B

/-- Process a list of rows in order, each store writing the kernel's output
for that row at `r * out_stride`. -/
def runRows (E : Val → Val) (inp : Mem) (in_stride out_stride n_cols B : Nat)
    (rs : List Nat) (out : Mem) : Mem :=
  rs.foldl (fun o r => writeSeq o (r * out_stride) (rowVals E inp in_stride n_cols B r)) out

/-- One kernel instance: program id `i` of `s` processes rows
`i, i+s, i+2s, …` below `n_rows`. -/
def runInstance (E : Val → Val) (inp : Mem) (in_stride out_stride n_rows n_cols B : Nat)
    (i s : Nat) (out : Mem) : Mem :=
  runRows E inp in_stride out_stride n_cols B (rowLoop i s n_rows) out

/-- The whole grid: `num_programs` independent instances.  The instances
write disjoint row segments, so the sequential composition is their agreed
parallel semantics. -/
def runKernel (E : Val → Val) (inp : Mem) (in_stride out_stride n_rows n_cols B : Nat)
    (num_programs : Nat) (out : Mem) : Mem :=
  (List.range num_programs).foldl
    (fun o i => runInstance E inp in_stride out_stride n_rows n_cols B i num_programs o) out

/-- The input addresses a masked `tl.load` of instance `i` touches: only the
unmasked lanes `j < n_cols` of each visited row. -/
def instReadAddrs (in_stride n_rows n_cols i s : Nat) : List Nat :=
  (rowLoop i s n_rows).flatMap (fun r => (List.range n_cols).map (fun j => r * in_stride + j))

/-- The output addresses a masked `tl.store` of instance `i` touches. -/
def instWriteAddrs (out_stride n_rows n_cols i s : Nat) : List Nat :=
  (rowLoop i s n_rows).flatMap (fun r => (List.range n_cols).map (fun j => r * out_stride + j))

/-! ### The host-side planner (`softmax` wrapper) -/

/-- The device properties fetched from
`triton.runtime.driver.active.utils.get_device_properties` at module load. -/
structure DeviceCapabilities where
  num_sm : Nat        -- `multiprocessor_count`
  num_regs : Nat      -- `max_num_regs`
  sram_per_sm : Nat   -- `max_shared_mem`
  warp_size : Nat     -- `warpSize`
deriving DecidableEq

/-- What `kernel.warmup` + `kernel._init_handles` report back: registers per
thread and shared memory per program. -/
structure KernelFootprint where
  n_regs : Nat        -- `kernel.n_regs`
  sram_needed : Nat   -- `kernel.metadata.shared`
deriving DecidableEq

/-- The launch configuration the wrapper computes. -/
structure LaunchPlan where
  block_size : Nat
  num_wraps : Nat
  num_stages : Nat
  num_programs : Nat
deriving DecidableEq

/-- The only failure the wrapper itself can produce: a Python
`ZeroDivisionError` in the occupancy arithmetic. -/
inductive PlanError
  | zeroDivision
deriving DecidableEq

/-- Modelled from the spec: `triton.next_power_of_2` (an external library
call), documented as the smallest power of two ≥ its argument; fuel-structured
halving recursion, fuel `n` suffices. -/
def nextPow2Go : Nat → Nat → Nat
  | 0, _ => 1
  | fuel + 1, n => if n ≤ 1 then 1 else 2 * nextPow2Go fuel ((n + 1) / 2)

/-- `triton.next_power_of_2(n)`. -/
def nextPow2 (n : Nat) : Nat := nextPow2Go n n

/-- Lines 61–65: `num_wraps = 4`, then reassigned to `8` when
`BLOCK_SIZE >= 2048`, then to `16` when `BLOCK_SIZE >= 4096`. -/
def numWraps (block_size : Nat) : Nat :=
  let w := 4
  let w := if 2048 ≤ block_size then 8 else w
  if 4096 ≤ block_size then 16 else w

/-- Line 67: `num_stages = 4 if TOTAL_SRAM_PER_SM > 200_000 else 2`. -/
def numStages (caps : DeviceCapabilities) : Nat :=
  if 200000 < caps.sram_per_sm then 4 else 2

/-- The planning portion of the `softmax` wrapper (lines 55–96).  `fp`
abstracts the compiled kernel's introspected footprint as a function of the
constexpr parameters `(BLOCK_SIZE, num_stages, num_wraps)` that the warmup
compiled for.  A zero divisor in the `//` occupancy arithmetic is the Python
`ZeroDivisionError`. -/
def softmaxPlan (caps : DeviceCapabilities) (fp : Nat → Nat → Nat → KernelFootprint)
    (n_rows n_cols : Nat) : Except PlanError LaunchPlan :=
  let BLOCK_SIZE := nextPow2 n_cols
  let num_wraps := numWraps BLOCK_SIZE
  let num_stages := numStages caps
  let k := fp BLOCK_SIZE num_stages num_wraps
  let d := k.n_regs * caps.warp_size * num_wraps
  if d = 0 then .error .zeroDivision
  else if k.sram_needed = 0 then .error .zeroDivision
  else
    let reg_occupancy := caps.num_regs / d
    let sram_occupancy := caps.sram_per_sm / k.sram_needed
    let programs_per_sm := min reg_occupancy sram_occupancy
    let num_programs := min (caps.num_sm * programs_per_sm) n_rows
    .ok ⟨BLOCK_SIZE, num_wraps, num_stages, num_programs⟩

/-- The external calls `softmax` performs, in program order: the warmup
compile/introspection always happens first (line 71), and the launch
(line 99) happens unless the occupancy arithmetic raised. -/
inductive ExtCall
  | warmup (block_size num_stages num_wraps : Nat)
  | launch (num_programs : Nat)
deriving DecidableEq

/-- The sequence of external calls one invocation of `softmax` makes. -/
def softmaxCalls (caps : DeviceCapabilities) (fp : Nat → Nat → Nat → KernelFootprint)
    (n_rows n_cols : Nat) : List ExtCall :=
  let BLOCK_SIZE := nextPow2 n_cols
  let num_wraps := numWraps BLOCK_SIZE
  let num_stages := numStages caps
  match softmaxPlan caps fp n_rows n_cols with
  | .error _ => [.warmup BLOCK_SIZE num_stages num_wraps]
  | .ok p => [.warmup BLOCK_SIZE num_stages num_wraps, .launch p.num_programs]

/-- A full `softmax` call: plan, then run the launched grid over the
buffers.  `out` is the freshly allocated (`torch.empty_like`) output. -/
def softmaxExec (E : Val → Val) (caps : DeviceCapabilities)
    (fp : Nat → Nat → Nat → KernelFootprint) (inp : Mem)
    (in_stride out_stride n_rows n_cols : Nat) (out : Mem) : Except PlanError Mem :=
  (softmaxPlan caps fp n_rows n_cols).map
    (fun p => runKernel E inp in_stride out_stride n_rows n_cols p.block_size
      p.num_programs out)

/-- The concatenation of all instances' row lists, in launch order. -/
def gridRows (s n : Nat) : List Nat :=
  (List.range s).flatMap (fun i => rowLoop i s n)

/-! ### Concrete inputs used to exercise the theorems below -/

/-- A concrete stand-in for the exponential, used on concrete inputs. -/
def wE : Val → Val := fun q => 1 + q

/-- A concrete input buffer. -/
def wInp : Mem := fun p => (p : ℚ)

/-- A concrete freshly allocated output buffer. -/
def wOut : Mem := fun _ => 99

/-- Concrete device properties. -/
def wCaps : DeviceCapabilities := ⟨1, 1000000, 100000, 32⟩

/-- A concrete footprint report, independent of the constexpr knobs. -/
def wFp : Nat → Nat → Nat → KernelFootprint := fun _ _ _ => ⟨10, 100⟩

/-- A footprint report that depends on the compiled `num_stages`: the
deeper pipeline consumes far more shared memory. -/
def cexFp : Nat → Nat → Nat → KernelFootprint :=
  fun _ stages _ => ⟨1, if stages = 4 then 1000000 else 1⟩

/-! ### Properties of `nextPow2` -/

theorem nextPow2Go_spec (fuel : Nat) : ∀ n, n ≤ fuel →
    (∃ k, nextPow2Go fuel n = 2 ^ k) ∧ n ≤ nextPow2Go fuel n ∧
      ∀ k, n ≤ 2 ^ k → nextPow2Go fuel n ≤ 2 ^ k := by
  induction fuel with
  | zero =>
    intro n hn
    obtain rfl : n = 0 := Nat.le_zero.mp hn
    exact ⟨⟨0, rfl⟩, Nat.zero_le _, fun k _ => Nat.one_le_pow k 2 (by norm_num)⟩
  | succ fuel ih =>
    intro n hn
    by_cases h1 : n ≤ 1
    · have hres : nextPow2Go (fuel + 1) n = 1 := by simp [nextPow2Go, h1]
      refine ⟨⟨0, by rw [hres, pow_zero]⟩, by omega, ?_⟩
      intro k _
      rw [hres]
      exact Nat.one_le_pow k 2 (by norm_num)
    · have hrec : nextPow2Go (fuel + 1) n = 2 * nextPow2Go fuel ((n + 1) / 2) := by
        simp [nextPow2Go, h1]
      have hm : (n + 1) / 2 ≤ fuel := by omega
      obtain ⟨⟨k0, hk0⟩, hge, hmin⟩ := ih ((n + 1) / 2) hm
      refine ⟨⟨k0 + 1, by rw [hrec, hk0, pow_succ]; ring⟩, by rw [hrec]; omega, ?_⟩
      intro k hk
      rcases k with _ | k'
      · simp at hk; omega
      · have h2 : (2 : Nat) ^ (k' + 1) = 2 * 2 ^ k' := by rw [pow_succ]; ring
        have hm2 : (n + 1) / 2 ≤ 2 ^ k' := by omega
        have := hmin k' hm2
        rw [hrec]; omega

theorem nextPow2_spec (n : Nat) :
    (∃ k, nextPow2 n = 2 ^ k) ∧ n ≤ nextPow2 n ∧
      ∀ k, n ≤ 2 ^ k → nextPow2 n ≤ 2 ^ k :=
  nextPow2Go_spec n n (Nat.le_refl n)

theorem nextPow2_ge (n : Nat) : n ≤ nextPow2 n := (nextPow2_spec n).2.1

/-! ### Properties of the row loop -/

theorem rowLoopGo_lt : ∀ (fuel start step n r : Nat),
    r ∈ rowLoopGo fuel start step n → r < n := by
  intro fuel
  induction fuel with
  | zero => intro start step n r h; simp [rowLoopGo] at h
  | succ fuel ih =>
    intro start step n r h
    rw [rowLoopGo] at h
    split at h
    · rcases List.mem_cons.mp h with rfl | h'
      · assumption
      · exact ih _ _ _ _ h'
    · simp at h

theorem rowLoop_lt (start step n r : Nat) (h : r ∈ rowLoop start step n) : r < n :=
  rowLoopGo_lt n start step n r h

theorem rowLoopGo_mem (step : Nat) :
    ∀ (fuel start n : Nat), n ≤ start + fuel * step →
      ∀ r, (r ∈ rowLoopGo fuel start step n ↔ ∃ k, r = start + step * k ∧ r < n) := by
  intro fuel
  induction fuel with
  | zero =>
    intro start n hfuel r
    simp only [rowLoopGo, List.not_mem_nil, false_iff, not_exists, not_and]
    intro k hr
    have hk : 0 ≤ step * k := Nat.zero_le _
    omega
  | succ fuel ih =>
    intro start n hfuel r
    by_cases hlt : start < n
    · rw [show rowLoopGo (fuel + 1) start step n
          = start :: rowLoopGo fuel (start + step) step n by rw [rowLoopGo, if_pos hlt]]
      have hfs : (fuel + 1) * step = fuel * step + step := by ring
      have hfuel' : n ≤ (start + step) + fuel * step := by omega
      rw [List.mem_cons, ih (start + step) n hfuel' r]
      constructor
      · rintro (rfl | ⟨k, rfl, hk⟩)
        · exact ⟨0, by ring, hlt⟩
        · exact ⟨k + 1, by ring, hk⟩
      · rintro ⟨k, rfl, hk⟩
        rcases k with _ | k'
        · left; ring
        · right; exact ⟨k', by ring, hk⟩
    · rw [show rowLoopGo (fuel + 1) start step n = [] by rw [rowLoopGo, if_neg hlt]]
      simp only [List.not_mem_nil, false_iff, not_exists, not_and]
      intro k hr
      have hk : 0 ≤ step * k := Nat.zero_le _
      omega

theorem rowLoop_mem (start step n : Nat) (hstep : 1 ≤ step) (r : Nat) :
    r ∈ rowLoop start step n ↔ ∃ k, r = start + step * k ∧ r < n := by
  have hns : n ≤ start + n * step := by
    have := Nat.mul_le_mul_left n hstep
    omega
  exact rowLoopGo_mem step n start n hns r

theorem rowLoop_mem_mod (i s n r : Nat) (hs : 1 ≤ s) (hi : i < s)
    (h : r ∈ rowLoop i s n) : r % s = i := by
  obtain ⟨k, rfl, _⟩ := (rowLoop_mem i s n hs r).mp h
  rw [Nat.add_mul_mod_self_left]
  exact Nat.mod_eq_of_lt hi

theorem rowLoopGo_pairwise (step : Nat) (hstep : 1 ≤ step) :
    ∀ (fuel start n : Nat), n ≤ start + fuel * step →
      List.Pairwise (· < ·) (rowLoopGo fuel start step n) := by
  intro fuel
  induction fuel with
  | zero => intro start n _; simp [rowLoopGo]
  | succ fuel ih =>
    intro start n hfuel
    by_cases hlt : start < n
    · rw [show rowLoopGo (fuel + 1) start step n
          = start :: rowLoopGo fuel (start + step) step n by rw [rowLoopGo, if_pos hlt]]
      have hfs : (fuel + 1) * step = fuel * step + step := by ring
      have hfuel' : n ≤ (start + step) + fuel * step := by omega
      refine List.pairwise_cons.mpr ⟨?_, ih (start + step) n hfuel'⟩
      intro r hr
      obtain ⟨k, rfl, _⟩ := (rowLoopGo_mem step fuel (start + step) n hfuel' r).mp hr
      have hk : 0 ≤ step * k := Nat.zero_le _
      omega
    · rw [show rowLoopGo (fuel + 1) start step n = [] by rw [rowLoopGo, if_neg hlt]]
      simp

theorem rowLoop_pairwise (start step n : Nat) (hstep : 1 ≤ step) :
    List.Pairwise (· < ·) (rowLoop start step n) := by
  have hns : n ≤ start + n * step := by
    have := Nat.mul_le_mul_left n hstep
    omega
  exact rowLoopGo_pairwise step hstep n start n hns

theorem rowLoop_nodup (start step n : Nat) (hstep : 1 ≤ step) :
    (rowLoop start step n).Nodup :=
  (rowLoop_pairwise start step n hstep).imp (fun h => Nat.ne_of_lt h)

/-! ### Properties of memory reads and writes -/

theorem writeSeq_frame : ∀ (vs : List Val) (m : Mem) (base p : Nat),
    p < base ∨ base + vs.length ≤ p → writeSeq m base vs p = m p := by
  intro vs
  induction vs with
  | nil => intro m base p _; rfl
  | cons v vs ih =>
    intro m base p hp
    have hlen : (v :: vs).length = vs.length + 1 := rfl
    have h1 : writeSeq m base (v :: vs) p = wr m base v p := by
      show writeSeq (wr m base v) (base + 1) vs p = wr m base v p
      exact ih _ _ _ (by omega)
    rw [h1]
    have hne : ¬ p = base := by omega
    simp [wr, hne]

theorem writeSeq_at : ∀ (vs : List Val) (m : Mem) (base j : Nat), j < vs.length →
    writeSeq m base vs (base + j) = vs.getD j 0 := by
  intro vs
  induction vs with
  | nil => intro m base j h; simp at h
  | cons v vs ih =>
    intro m base j h
    rcases j with _ | j'
    · show writeSeq (wr m base v) (base + 1) vs (base + 0) = v
      rw [writeSeq_frame vs _ (base + 1) (base + 0) (by omega)]
      simp [wr]
    · show writeSeq (wr m base v) (base + 1) vs (base + (j' + 1)) = vs.getD j' 0
      have haddr : base + (j' + 1) = (base + 1) + j' := by omega
      rw [haddr]
      exact ih _ _ _ (by simpa using h)

theorem readRow_length (m : Mem) (base n : Nat) : (readRow m base n).length = n := by
  simp [readRow]

theorem readRow_writeSeq (vs : List Val) (m : Mem) (base : Nat) :
    readRow (writeSeq m base vs) base vs.length = vs := by
  apply List.ext_getElem
  · simp [readRow]
  · intro i h1 h2
    simp only [readRow, List.getElem_map, List.getElem_range]
    rw [writeSeq_at vs m base i h2]
    exact List.getD_eq_getElem vs 0 h2

/-! ### The padded block: masked lanes are inert -/

theorem padRow_length (row : List Val) (B : Nat) : (padRow row B).length = B := by
  simp [padRow]

theorem padRow_self (row : List Val) : padRow row row.length = row.map some := by
  apply List.ext_getElem
  · simp [padRow]
  · intro i h1 h2
    simp only [padRow, List.getElem_map, List.getElem_range]
    rw [List.getElem?_eq_getElem (by simpa [padRow] using h1)]

theorem padRow_append (row : List Val) (B : Nat) (h : row.length ≤ B) :
    padRow row B = row.map some ++ List.replicate (B - row.length) none := by
  apply List.ext_getElem
  · simp [padRow]; omega
  · intro i h1 h2
    simp only [padRow, List.getElem_map, List.getElem_range]
    by_cases hi : i < row.length
    · rw [List.getElem_append_left (by simpa using hi)]
      simp only [List.getElem_map]
      rw [List.getElem?_eq_getElem hi]
    · rw [List.getElem_append_right (by simpa using hi)]
      simp only [List.getElem_replicate]
      exact List.getElem?_eq_none (by omega)

theorem cmax_none_right (c : Cell) : cmax c none = c := by cases c <;> rfl

theorem foldl_cmax_replicate : ∀ (k : Nat) (c : Cell),
    (List.replicate k (none : Cell)).foldl cmax c = c := by
  intro k
  induction k with
  | zero => intro c; rfl
  | succ k ih =>
    intro c
    rw [List.replicate_succ, List.foldl_cons, cmax_none_right]
    exact ih c

theorem expSub_none (E : Val → Val) (m : Cell) : expSub E m none = 0 := by
  cases m <;> rfl

theorem blockMax_pad (row : List Val) (B : Nat) (h : row.length ≤ B) :
    blockMax (padRow row B) = blockMax (row.map some) := by
  rw [padRow_append row B h, blockMax, List.foldl_append, foldl_cmax_replicate]
  rfl

theorem foldl_cmax_some : ∀ (t : List Val) (a : Val),
    (t.map some).foldl cmax (some a) = some (t.foldl max a) := by
  intro t
  induction t with
  | nil => intro a; rfl
  | cons v t ih =>
    intro a
    rw [List.map_cons, List.foldl_cons, List.foldl_cons]
    exact ih (max a v)

theorem blockMax_map_some (row : List Val) (hrow : row ≠ []) :
    blockMax (row.map some) = some (refMax row) := by
  cases row with
  | nil => cases hrow rfl
  | cons a t =>
    show (List.map some (a :: t)).foldl cmax none = some (refMax (a :: t))
    rw [List.map_cons, List.foldl_cons]
    rw [show cmax none (some a) = some a from rfl, foldl_cmax_some]
    simp [refMax]

/-- The kernel body with its `let`s inlined. -/
theorem kernelRow_def (E : Val → Val) (row : List Val) (B : Nat) :
    kernelRow E row B
      = (((padRow row B).map (expSub E (blockMax (padRow row B)))).map
          (fun v => v / ((padRow row B).map (expSub E (blockMax (padRow row B)))).sum)).take
          row.length := rfl

/-- Dropping the padding lanes changes neither the block max, the sum, nor
the stored values: the kernel body at block width `B ≥ n_cols` agrees with
the kernel body at the exact row width. -/
theorem kernelRow_drop_pad (E : Val → Val) (row : List Val) (B : Nat)
    (h : row.length ≤ B) :
    kernelRow E row B = kernelRow E row row.length := by
  rw [kernelRow_def, kernelRow_def]
  rw [padRow_append row B h, padRow_self]
  rw [show blockMax (row.map some ++ List.replicate (B - row.length) none)
      = blockMax (row.map some) by
    rw [blockMax, List.foldl_append, foldl_cmax_replicate]; rfl]
  rw [List.map_append]
  rw [show (List.replicate (B - row.length) (none : Cell)).map
        (expSub E (blockMax (row.map some)))
      = List.replicate (B - row.length) 0 by
    rw [List.map_replicate, expSub_none]]
  rw [List.sum_append, List.sum_replicate, smul_zero, add_zero]
  rw [List.map_append, List.take_append_of_le_length (by simp)]

/-- The kernel body computes exactly the spec's reference softmax row. -/
theorem kernelRow_eq_ref (E : Val → Val) (row : List Val) (B : Nat)
    (h : row.length ≤ B) :
    kernelRow E row B = refSoftmaxRow E row := by
  rw [kernelRow_drop_pad E row B h]
  cases row with
  | nil => rfl
  | cons a t =>
    rw [kernelRow_def, refSoftmaxRow]
    rw [padRow_self, blockMax_map_some _ (by simp)]
    have hnum : (List.map some (a :: t)).map (expSub E (some (refMax (a :: t))))
        = (a :: t).map (fun v => E (v - refMax (a :: t))) := by
      rw [List.map_map]; rfl
    rw [hnum, List.map_map]
    rw [List.take_of_length_le (by simp)]
    rfl

theorem kernelRow_length (E : Val → Val) (row : List Val) (B : Nat)
    (h : row.length ≤ B) : (kernelRow E row B).length = row.length := by
  simp [kernelRow, padRow]
  omega

/-! ### The grid: disjoint row segments, coverage, final memory -/

theorem rowVals_length (E : Val → Val) (inp : Mem) (in_stride n_cols B r : Nat)
    (hB : n_cols ≤ B) : (rowVals E inp in_stride n_cols B r).length = n_cols := by
  rw [rowVals, kernelRow_length E _ B (by rw [readRow_length]; exact hB), readRow_length]

theorem runRows_nil (E : Val → Val) (inp : Mem) (ist ost nc B : Nat) (out : Mem) :
    runRows E inp ist ost nc B [] out = out := rfl

theorem runRows_cons (E : Val → Val) (inp : Mem) (ist ost nc B : Nat)
    (a : Nat) (t : List Nat) (out : Mem) :
    runRows E inp ist ost nc B (a :: t) out
      = runRows E inp ist ost nc B t
          (writeSeq out (a * ost) (rowVals E inp ist nc B a)) := rfl

theorem runRows_frame (E : Val → Val) (inp : Mem) (ist ost nc B : Nat)
    (hB : nc ≤ B) :
    ∀ (rs : List Nat) (out : Mem) (p : Nat),
      (∀ r ∈ rs, p < r * ost ∨ r * ost + nc ≤ p) →
      runRows E inp ist ost nc B rs out p = out p := by
  intro rs
  induction rs with
  | nil => intro out p _; rfl
  | cons a t ih =>
    intro out p hp
    rw [runRows_cons, ih _ _ (fun r hr => hp r (List.mem_cons_of_mem _ hr))]
    apply writeSeq_frame
    rw [rowVals_length E inp ist nc B a hB]
    exact hp a (List.mem_cons_self a t)

/-- Segments of distinct rows are disjoint when the stride is at least
`n_cols`: a point of row `r`'s segment is outside row `r'`'s segment. -/
theorem segment_disjoint (ost nc r r' j : Nat) (hos : nc ≤ ost) (hj : j < nc)
    (hne : r' ≠ r) : r * ost + j < r' * ost ∨ r' * ost + nc ≤ r * ost + j := by
  rcases Nat.lt_or_ge r' r with hlt | hge
  · right
    have h1 : (r' + 1) * ost ≤ r * ost := Nat.mul_le_mul_right ost (by omega)
    have h2 : r' * ost + ost = (r' + 1) * ost := by ring
    omega
  · left
    have hlt' : r < r' := by omega
    have h1 : (r + 1) * ost ≤ r' * ost := Nat.mul_le_mul_right ost (by omega)
    have h2 : r * ost + ost = (r + 1) * ost := by ring
    omega

theorem runRows_at (E : Val → Val) (inp : Mem) (ist ost nc B : Nat)
    (hB : nc ≤ B) (hos : nc ≤ ost) :
    ∀ (rs : List Nat), rs.Nodup → ∀ (out : Mem) (r : Nat), r ∈ rs →
      ∀ j, j < nc →
        runRows E inp ist ost nc B rs out (r * ost + j)
          = (rowVals E inp ist nc B r).getD j 0 := by
  intro rs
  induction rs with
  | nil => intro _ out r hr; simp at hr
  | cons a t ih =>
    intro hnd out r hr j hj
    obtain ⟨ha, hndt⟩ := List.nodup_cons.mp hnd
    rcases List.mem_cons.mp hr with rfl | hrt
    · rw [runRows_cons]
      rw [runRows_frame E inp ist ost nc B hB t _ _ ?_]
      · rw [writeSeq_at _ _ _ _ (by rw [rowVals_length E inp ist nc B r hB]; exact hj)]
      · intro r' hr'
        exact segment_disjoint ost nc r r' j hos hj (fun h => ha (h ▸ hr'))
    · rw [runRows_cons]
      exact ih hndt _ r hrt j hj

theorem runRows_readRow (E : Val → Val) (inp : Mem) (ist ost nc B : Nat)
    (hB : nc ≤ B) (hos : nc ≤ ost) (rs : List Nat) (hnd : rs.Nodup)
    (out : Mem) (r : Nat) (hr : r ∈ rs) :
    readRow (runRows E inp ist ost nc B rs out) (r * ost) nc
      = rowVals E inp ist nc B r := by
  apply List.ext_getElem
  · rw [readRow_length, rowVals_length E inp ist nc B r hB]
  · intro i h1 h2
    simp only [readRow, List.getElem_map, List.getElem_range]
    rw [runRows_at E inp ist ost nc B hB hos rs hnd out r hr i
      (by rw [readRow_length] at h1; exact h1)]
    exact List.getD_eq_getElem _ 0 h2

theorem runKernel_eq_runRows (E : Val → Val) (inp : Mem)
    (ist ost n_rows nc B s : Nat) (out : Mem) :
    runKernel E inp ist ost n_rows nc B s out
      = runRows E inp ist ost nc B (gridRows s n_rows) out := by
  suffices h : ∀ (l : List Nat) (out : Mem),
      l.foldl (fun o i => runInstance E inp ist ost n_rows nc B i s o) out
        = runRows E inp ist ost nc B (l.flatMap (fun i => rowLoop i s n_rows)) out by
    exact h (List.range s) out
  intro l
  induction l with
  | nil => intro out; rfl
  | cons a t ih =>
    intro out
    rw [List.foldl_cons, List.flatMap_cons]
    rw [show runRows E inp ist ost nc B (rowLoop a s n_rows ++ t.flatMap
          (fun i => rowLoop i s n_rows)) out
        = runRows E inp ist ost nc B (t.flatMap (fun i => rowLoop i s n_rows))
            (runRows E inp ist ost nc B (rowLoop a s n_rows) out) by
      simp [runRows, List.foldl_append]]
    rw [ih]
    rfl

theorem gridRows_mem (s n r : Nat) (hs : 1 ≤ s) :
    r ∈ gridRows s n ↔ r < n := by
  constructor
  · intro h
    obtain ⟨i, _, hr⟩ := List.mem_flatMap.mp h
    exact rowLoop_lt i s n r hr
  · intro h
    refine List.mem_flatMap.mpr ⟨r % s, List.mem_range.mpr (Nat.mod_lt r hs), ?_⟩
    refine (rowLoop_mem (r % s) s n hs r).mpr ⟨r / s, ?_, h⟩
    exact (Nat.mod_add_div r s).symm

theorem gridRows_nodup (s n : Nat) (hs : 1 ≤ s) : (gridRows s n).Nodup := by
  rw [gridRows]
  suffices h : ∀ (l : List Nat), l.Nodup → (∀ i ∈ l, i < s) →
      (l.flatMap (fun i => rowLoop i s n)).Nodup by
    exact h (List.range s) (List.nodup_range s) (fun i hi => List.mem_range.mp hi)
  intro l
  induction l with
  | nil => intro _ _; simp
  | cons a t ih =>
    intro hnd hlt
    obtain ⟨ha, hndt⟩ := List.nodup_cons.mp hnd
    rw [List.flatMap_cons]
    refine List.nodup_append.mpr ⟨rowLoop_nodup a s n hs,
      ih hndt (fun i hi => hlt i (List.mem_cons_of_mem _ hi)), ?_⟩
    intro r hra hrt
    obtain ⟨i, hit, hri⟩ := List.mem_flatMap.mp hrt
    have h1 : r % s = a := rowLoop_mem_mod a s n r hs (hlt a (List.mem_cons_self a t)) hra
    have h2 : r % s = i := rowLoop_mem_mod i s n r hs
      (hlt i (List.mem_cons_of_mem _ hit)) hri
    exact ha (by rw [← h1, h2]; exact hit)

/-- Row `r`'s stored segment in the final memory is exactly the kernel body
applied to input row `r`. -/
theorem runKernel_readRow (E : Val → Val) (inp : Mem)
    (ist ost n_rows nc B s : Nat) (out : Mem)
    (hB : nc ≤ B) (hos : nc ≤ ost) (hs : 1 ≤ s) (r : Nat) (hr : r < n_rows) :
    readRow (runKernel E inp ist ost n_rows nc B s out) (r * ost) nc
      = rowVals E inp ist nc B r := by
  rw [runKernel_eq_runRows]
  exact runRows_readRow E inp ist ost nc B hB hos (gridRows s n_rows)
    (gridRows_nodup s n_rows hs) out r ((gridRows_mem s n_rows r hs).mpr hr)

/-- Addresses outside every row's first `n_cols` lanes are never written. -/
theorem runKernel_frame (E : Val → Val) (inp : Mem)
    (ist ost n_rows nc B s : Nat) (out : Mem) (hB : nc ≤ B) (p : Nat)
    (hp : ∀ r, r < n_rows → p < r * ost ∨ r * ost + nc ≤ p) :
    runKernel E inp ist ost n_rows nc B s out p = out p := by
  rw [runKernel_eq_runRows]
  apply runRows_frame E inp ist ost nc B hB
  intro r hr
  obtain ⟨i, _, hri⟩ := List.mem_flatMap.mp hr
  exact hp r (rowLoop_lt i s n_rows r hri)

/-! ### Characterizing a successful plan -/

theorem numWraps_def (b : Nat) :
    numWraps b = if 4096 ≤ b then 16 else if 2048 ≤ b then 8 else 4 := rfl

theorem softmaxPlan_ok_iff (caps : DeviceCapabilities)
    (fp : Nat → Nat → Nat → KernelFootprint) (n_rows n_cols : Nat) (p : LaunchPlan)
    (h : softmaxPlan caps fp n_rows n_cols = .ok p) :
    (fp (nextPow2 n_cols) (numStages caps) (numWraps (nextPow2 n_cols))).n_regs
        * caps.warp_size * numWraps (nextPow2 n_cols) ≠ 0
    ∧ (fp (nextPow2 n_cols) (numStages caps) (numWraps (nextPow2 n_cols))).sram_needed ≠ 0
    ∧ p = ⟨nextPow2 n_cols, numWraps (nextPow2 n_cols), numStages caps,
        min (caps.num_sm * min
            (caps.num_regs
              / ((fp (nextPow2 n_cols) (numStages caps) (numWraps (nextPow2 n_cols))).n_regs
                  * caps.warp_size * numWraps (nextPow2 n_cols)))
            (caps.sram_per_sm
              / (fp (nextPow2 n_cols) (numStages caps)
                  (numWraps (nextPow2 n_cols))).sram_needed))
          n_rows⟩ := by
  simp only [softmaxPlan] at h
  split at h
  · exact absurd h (by simp)
  · split at h
    · exact absurd h (by simp)
    · rename_i h1 h2
      injection h with h
      exact ⟨h1, h2, h.symm⟩

/-! ### The claims -/

/-- C1: for every rank-2 input matrix, a `softmax` call whose plan launched
at least one program produces an output in which every row segment equals
the reference row-wise softmax `exp(x[i][j] - max_j x[i][j]) / Σ_j exp(...)`
of the corresponding input row, for any exponential function `E`. -/
theorem softmax_rows_match_reference (E : Val → Val) (caps : DeviceCapabilities)
    (fp : Nat → Nat → Nat → KernelFootprint) (inp out : Mem)
    (in_stride out_stride n_rows n_cols : Nat) (p : LaunchPlan) (res : Mem)
    (hplan : softmaxPlan caps fp n_rows n_cols = .ok p)
    (hres : softmaxExec E caps fp inp in_stride out_stride n_rows n_cols out = .ok res)
    (hs : 1 ≤ p.num_programs) (hos : n_cols ≤ out_stride) :
    ∀ r, r < n_rows →
      readRow res (r * out_stride) n_cols
        = refSoftmaxRow E (readRow inp (r * in_stride) n_cols) := by
  intro r hr
  have hexec : res = runKernel E inp in_stride out_stride n_rows n_cols
      p.block_size p.num_programs out := by
    unfold softmaxExec at hres
    rw [hplan] at hres
    simp only [Except.map] at hres
    exact (Except.ok.inj hres).symm
  have hB : n_cols ≤ p.block_size := by
    obtain ⟨_, _, hp⟩ := softmaxPlan_ok_iff caps fp n_rows n_cols p hplan
    rw [hp]
    exact nextPow2_ge n_cols
  subst hexec
  rw [runKernel_readRow E inp in_stride out_stride n_rows n_cols p.block_size
    p.num_programs out hB hos hs r hr]
  rw [rowVals]
  exact kernelRow_eq_ref E _ p.block_size (by rw [readRow_length]; exact hB)

theorem softmax_rows_match_reference_witness :
    readRow (runKernel wE wInp 2 2 2 2 2 2 wOut) (1 * 2) 2
      = refSoftmaxRow wE (readRow wInp (1 * 2) 2) :=
  softmax_rows_match_reference wE wCaps wFp wInp wOut 2 2 2 2 ⟨2, 4, 2, 2⟩
    (runKernel wE wInp 2 2 2 2 2 2 wOut) rfl rfl (by decide) (by decide) 1 (by decide)

/-- C3: whenever the planner's occupancy arithmetic completes, the computed
`num_programs` is `min (num_sm * min (num_regs / (n_regs * warp_size *
num_wraps)) (sram_per_sm / sram_needed)) n_rows`, and in particular
`num_programs ≤ n_rows`. -/
theorem num_programs_formula (caps : DeviceCapabilities)
    (fp : Nat → Nat → Nat → KernelFootprint) (n_rows n_cols : Nat) (p : LaunchPlan)
    (k : KernelFootprint)
    (hk : k = fp (nextPow2 n_cols) (numStages caps) (numWraps (nextPow2 n_cols)))
    (h : softmaxPlan caps fp n_rows n_cols = .ok p) :
    p.num_programs
      = min (caps.num_sm * min
          (caps.num_regs / (k.n_regs * caps.warp_size * numWraps (nextPow2 n_cols)))
          (caps.sram_per_sm / k.sram_needed)) n_rows
    ∧ p.num_programs ≤ n_rows := by
  obtain ⟨_, _, hp⟩ := softmaxPlan_ok_iff caps fp n_rows n_cols p h
  subst hk
  rw [hp]
  exact ⟨rfl, Nat.min_le_right _ _⟩

theorem num_programs_formula_witness :
    LaunchPlan.num_programs ⟨2, 4, 2, 2⟩
      = min (1 * min (1000000 / (10 * 32 * numWraps (nextPow2 2))) (100000 / 100)) 2
    ∧ LaunchPlan.num_programs ⟨2, 4, 2, 2⟩ ≤ 2 :=
  num_programs_formula wCaps wFp 2 2 ⟨2, 4, 2, 2⟩ ⟨10, 100⟩ rfl rfl

/-- C7: for every `num_programs ≥ 1`, the strided row assignment partitions
`[0, n_rows)`: every row index belongs to exactly one instance's list, each
instance's list is strictly increasing, distinct instances' lists are
disjoint, and every assigned row is below `n_rows`. -/
theorem row_assignment_partition (s n : Nat) (hs : 1 ≤ s) :
    (∀ r, r < n → ∃! i, i < s ∧ r ∈ rowLoop i s n)
    ∧ (∀ i, List.Pairwise (· < ·) (rowLoop i s n))
    ∧ (∀ i j, i < s → j < s → i ≠ j → ∀ r, r ∈ rowLoop i s n → r ∉ rowLoop j s n)
    ∧ (∀ i r, r ∈ rowLoop i s n → r < n) := by
  refine ⟨?_, fun i => rowLoop_pairwise i s n hs, ?_, fun i r => rowLoop_lt i s n r⟩
  · intro r hr
    refine ⟨r % s, ⟨Nat.mod_lt r hs, ?_⟩, ?_⟩
    · exact (rowLoop_mem (r % s) s n hs r).mpr ⟨r / s, (Nat.mod_add_div r s).symm, hr⟩
    · rintro i ⟨hi, hmem⟩
      exact (rowLoop_mem_mod i s n r hs hi hmem).symm
  · intro i j hi hj hij r hri hrj
    have h1 := rowLoop_mem_mod i s n r hs hi hri
    have h2 := rowLoop_mem_mod j s n r hs hj hrj
    exact hij (by rw [← h1, h2])

theorem row_assignment_partition_witness :
    (∀ r, r < 5 → ∃! i, i < 2 ∧ r ∈ rowLoop i 2 5)
    ∧ (∀ i, List.Pairwise (· < ·) (rowLoop i 2 5))
    ∧ (∀ i j, i < 2 → j < 2 → i ≠ j → ∀ r, r ∈ rowLoop i 2 5 → r ∉ rowLoop j 2 5)
    ∧ (∀ i r, r ∈ rowLoop i 2 5 → r < 5) :=
  row_assignment_partition 2 5 (by decide)

/-- C8: the planner's chosen `block_size` is the smallest power of two
greater than or equal to `n_cols`. -/
theorem block_size_least_pow2 (caps : DeviceCapabilities)
    (fp : Nat → Nat → Nat → KernelFootprint) (n_rows n_cols : Nat) (p : LaunchPlan)
    (hplan : softmaxPlan caps fp n_rows n_cols = .ok p) :
    (∃ k, p.block_size = 2 ^ k) ∧ n_cols ≤ p.block_size
    ∧ ∀ k, n_cols ≤ 2 ^ k → p.block_size ≤ 2 ^ k := by
  obtain ⟨_, _, hp⟩ := softmaxPlan_ok_iff caps fp n_rows n_cols p hplan
  rw [hp]
  exact nextPow2_spec n_cols

theorem block_size_least_pow2_witness :
    (∃ k, LaunchPlan.block_size ⟨8, 4, 2, 3⟩ = 2 ^ k)
    ∧ 5 ≤ LaunchPlan.block_size ⟨8, 4, 2, 3⟩
    ∧ ∀ k, 5 ≤ 2 ^ k → LaunchPlan.block_size ⟨8, 4, 2, 3⟩ ≤ 2 ^ k :=
  block_size_least_pow2 wCaps wFp 3 5 ⟨8, 4, 2, 3⟩ rfl

/-- C9: the per-instance concurrency width is the step function of
`block_size`: 4 below 2048, 8 from 2048 to below 4096, 16 from 4096 on. -/
theorem num_wraps_step_table (caps : DeviceCapabilities)
    (fp : Nat → Nat → Nat → KernelFootprint) (n_rows n_cols : Nat) (p : LaunchPlan)
    (hplan : softmaxPlan caps fp n_rows n_cols = .ok p) :
    (p.block_size < 2048 → p.num_wraps = 4)
    ∧ (2048 ≤ p.block_size → p.block_size < 4096 → p.num_wraps = 8)
    ∧ (4096 ≤ p.block_size → p.num_wraps = 16) := by
  obtain ⟨_, _, hp⟩ := softmaxPlan_ok_iff caps fp n_rows n_cols p hplan
  rw [hp]
  refine ⟨fun h => ?_, fun h1 h2 => ?_, fun h => ?_⟩
  · show numWraps (nextPow2 n_cols) = 4
    have h' : nextPow2 n_cols < 2048 := h
    rw [numWraps_def, if_neg (by omega), if_neg (by omega)]
  · show numWraps (nextPow2 n_cols) = 8
    have h1' : 2048 ≤ nextPow2 n_cols := h1
    have h2' : nextPow2 n_cols < 4096 := h2
    rw [numWraps_def, if_neg (by omega), if_pos h1']
  · show numWraps (nextPow2 n_cols) = 16
    have h' : 4096 ≤ nextPow2 n_cols := h
    rw [numWraps_def, if_pos h']

theorem num_wraps_step_table_witness :
    (LaunchPlan.block_size ⟨2, 4, 2, 2⟩ < 2048 → LaunchPlan.num_wraps ⟨2, 4, 2, 2⟩ = 4)
    ∧ (2048 ≤ LaunchPlan.block_size ⟨2, 4, 2, 2⟩ → LaunchPlan.block_size ⟨2, 4, 2, 2⟩ < 4096 →
        LaunchPlan.num_wraps ⟨2, 4, 2, 2⟩ = 8)
    ∧ (4096 ≤ LaunchPlan.block_size ⟨2, 4, 2, 2⟩ → LaunchPlan.num_wraps ⟨2, 4, 2, 2⟩ = 16) :=
  num_wraps_step_table wCaps wFp 2 2 ⟨2, 4, 2, 2⟩ rfl

/-- C2, counterexample: with a footprint whose register demand exceeds one
compute unit's register file, the occupancy computes to zero, yet the
planner returns successfully (no error of any kind) with `num_programs = 0`
and a launch of a zero-sized grid is performed. -/
theorem zero_occupancy_no_error :
    softmaxPlan ⟨1, 100, 100, 32⟩ (fun _ _ _ => ⟨1000, 1⟩) 5 4 = .ok ⟨4, 4, 2, 0⟩
    ∧ softmaxCalls ⟨1, 100, 100, 32⟩ (fun _ _ _ => ⟨1000, 1⟩) 5 4
        = [.warmup 4 2 4, .launch 0] :=
  ⟨rfl, rfl⟩

/-- C2, amended: if the per-compute-unit occupancy computes to zero, the
planner does not raise any error; it proceeds to launch a zero-sized grid
(`num_programs = 0`) after the warmup compilation. -/
theorem zero_occupancy_zero_sized_launch (caps : DeviceCapabilities)
    (fp : Nat → Nat → Nat → KernelFootprint) (n_rows n_cols : Nat) (p : LaunchPlan)
    (hplan : softmaxPlan caps fp n_rows n_cols = .ok p)
    (hzero : min
        (caps.num_regs
          / ((fp (nextPow2 n_cols) (numStages caps) (numWraps (nextPow2 n_cols))).n_regs
              * caps.warp_size * numWraps (nextPow2 n_cols)))
        (caps.sram_per_sm
          / (fp (nextPow2 n_cols) (numStages caps)
              (numWraps (nextPow2 n_cols))).sram_needed) = 0) :
    p.num_programs = 0
    ∧ softmaxCalls caps fp n_rows n_cols
        = [.warmup (nextPow2 n_cols) (numStages caps) (numWraps (nextPow2 n_cols)),
           .launch 0] := by
  obtain ⟨_, _, hp⟩ := softmaxPlan_ok_iff caps fp n_rows n_cols p hplan
  have hnp : p.num_programs = 0 := by
    rw [hp]
    show min (caps.num_sm * min _ _) n_rows = 0
    rw [hzero, Nat.mul_zero]
    exact Nat.zero_min n_rows
  refine ⟨hnp, ?_⟩
  simp only [softmaxCalls]
  rw [hplan]
  show [ExtCall.warmup (nextPow2 n_cols) (numStages caps) (numWraps (nextPow2 n_cols)),
      ExtCall.launch p.num_programs]
    = [ExtCall.warmup (nextPow2 n_cols) (numStages caps) (numWraps (nextPow2 n_cols)),
       ExtCall.launch 0]
  rw [hnp]

theorem zero_occupancy_zero_sized_launch_witness :
    LaunchPlan.num_programs ⟨4, 4, 2, 0⟩ = 0
    ∧ softmaxCalls ⟨1, 100, 100, 32⟩ (fun _ _ _ => ⟨1000, 1⟩) 5 4
        = [.warmup (nextPow2 4) (numStages ⟨1, 100, 100, 32⟩) (numWraps (nextPow2 4)),
           .launch 0] :=
  zero_occupancy_zero_sized_launch ⟨1, 100, 100, 32⟩ (fun _ _ _ => ⟨1000, 1⟩) 5 4
    ⟨4, 4, 2, 0⟩ rfl rfl

/-- C4, counterexample: with the footprint function `cexFp` (whose shared
memory consumption grows with the compiled `num_stages`), increasing only
`max_fast_memory_per_unit` from 200000 to 300000 crosses the `num_stages`
threshold and strictly decreases `num_programs` from 5 to 0, for the fixed
shape 5 × 4. -/
theorem num_programs_not_monotone_in_sram :
    softmaxPlan ⟨1, 1000000, 200000, 32⟩ cexFp 5 4 = .ok ⟨4, 4, 2, 5⟩
    ∧ softmaxPlan ⟨1, 1000000, 300000, 32⟩ cexFp 5 4 = .ok ⟨4, 4, 4, 0⟩
    ∧ (200000 : Nat) ≤ 300000
    ∧ LaunchPlan.num_programs ⟨4, 4, 4, 0⟩ < LaunchPlan.num_programs ⟨4, 4, 2, 5⟩ :=
  ⟨rfl, rfl, by decide, by decide⟩

/-- C4, amended: increasing `max_registers_per_unit` never decreases
`num_programs`; increasing `max_fast_memory_per_unit` never decreases
`num_programs` provided the change keeps `num_stages` fixed (both values on
the same side of the 200000-byte threshold), since `num_stages` feeds back
into the kernel footprint. -/
theorem num_programs_monotone_amended (caps : DeviceCapabilities)
    (fp : Nat → Nat → Nat → KernelFootprint) (n_rows n_cols R1 R2 S1 S2 : Nat)
    (p1 p2 q1 q2 : LaunchPlan)
    (hR : R1 ≤ R2)
    (hp1 : softmaxPlan { caps with num_regs := R1 } fp n_rows n_cols = .ok p1)
    (hp2 : softmaxPlan { caps with num_regs := R2 } fp n_rows n_cols = .ok p2)
    (hS : S1 ≤ S2) (hth : 200000 < S1 ↔ 200000 < S2)
    (hq1 : softmaxPlan { caps with sram_per_sm := S1 } fp n_rows n_cols = .ok q1)
    (hq2 : softmaxPlan { caps with sram_per_sm := S2 } fp n_rows n_cols = .ok q2) :
    p1.num_programs ≤ p2.num_programs ∧ q1.num_programs ≤ q2.num_programs := by
  have hstS : numStages { caps with sram_per_sm := S1 }
      = numStages { caps with sram_per_sm := S2 } := by
    show (if 200000 < S1 then 4 else 2) = if 200000 < S2 then 4 else 2
    by_cases h : 200000 < S1
    · rw [if_pos h, if_pos (hth.mp h)]
    · rw [if_neg h, if_neg (fun h2 => h (hth.mpr h2))]
  obtain ⟨_, _, e1⟩ := softmaxPlan_ok_iff _ fp n_rows n_cols p1 hp1
  obtain ⟨_, _, e2⟩ := softmaxPlan_ok_iff _ fp n_rows n_cols p2 hp2
  obtain ⟨_, _, e3⟩ := softmaxPlan_ok_iff _ fp n_rows n_cols q1 hq1
  obtain ⟨_, _, e4⟩ := softmaxPlan_ok_iff _ fp n_rows n_cols q2 hq2
  constructor
  · rw [e1, e2]
    show min (caps.num_sm * min (R1 / _) _) n_rows
        ≤ min (caps.num_sm * min (R2 / _) _) n_rows
    exact min_le_min
      (Nat.mul_le_mul_left caps.num_sm
        (min_le_min (Nat.div_le_div_right hR) (Nat.le_refl _)))
      (Nat.le_refl n_rows)
  · rw [e3, e4, hstS]
    show min (caps.num_sm * min _ (S1 / _)) n_rows
        ≤ min (caps.num_sm * min _ (S2 / _)) n_rows
    exact min_le_min
      (Nat.mul_le_mul_left caps.num_sm
        (min_le_min (Nat.le_refl _) (Nat.div_le_div_right hS)))
      (Nat.le_refl n_rows)

theorem num_programs_monotone_amended_witness :
    LaunchPlan.num_programs ⟨2, 4, 2, 2⟩ ≤ LaunchPlan.num_programs ⟨2, 4, 2, 2⟩
    ∧ LaunchPlan.num_programs ⟨2, 4, 2, 2⟩ ≤ LaunchPlan.num_programs ⟨2, 4, 2, 2⟩ :=
  num_programs_monotone_amended wCaps wFp 2 2 1000000 1000001 100000 100001
    ⟨2, 4, 2, 2⟩ ⟨2, 4, 2, 2⟩ ⟨2, 4, 2, 2⟩ ⟨2, 4, 2, 2⟩
    (by decide) rfl rfl (by decide) (by decide) rfl rfl

/-- C5, counterexample: with `n_rows = 0` the wrapper still performs the
warmup kernel compilation/introspection call (and then a zero-sized
launch); it does not return before the device interaction. -/
theorem zero_rows_still_compiles :
    softmaxCalls ⟨1, 100000, 100, 32⟩ (fun _ _ _ => ⟨1, 1⟩) 0 1
      = [.warmup 1 2 4, .launch 0]
    ∧ ExtCall.warmup 1 2 4 ∈ softmaxCalls ⟨1, 100000, 100, 32⟩ (fun _ _ _ => ⟨1, 1⟩) 0 1 :=
  ⟨rfl, List.Mem.head _⟩

/-- C5, amended: when `n_rows = 0` and the occupancy arithmetic completes,
`softmax` still performs the warmup compilation call and then a zero-sized
launch (`num_programs = 0`), which leaves the output buffer untouched; the
device-capability query happens once at module load, not inside the call. -/
theorem zero_rows_behavior (caps : DeviceCapabilities)
    (fp : Nat → Nat → Nat → KernelFootprint) (n_cols : Nat) (p : LaunchPlan)
    (hplan : softmaxPlan caps fp 0 n_cols = .ok p) :
    p.num_programs = 0
    ∧ softmaxCalls caps fp 0 n_cols
        = [.warmup (nextPow2 n_cols) (numStages caps) (numWraps (nextPow2 n_cols)),
           .launch 0]
    ∧ ∀ (E : Val → Val) (inp out : Mem) (ist ost : Nat),
        runKernel E inp ist ost 0 n_cols p.block_size p.num_programs out = out := by
  obtain ⟨_, _, hp⟩ := softmaxPlan_ok_iff caps fp 0 n_cols p hplan
  have hnp : p.num_programs = 0 := by
    rw [hp]
    exact Nat.min_zero _
  refine ⟨hnp, ?_, ?_⟩
  · simp only [softmaxCalls]
    rw [hplan]
    show [ExtCall.warmup (nextPow2 n_cols) (numStages caps) (numWraps (nextPow2 n_cols)),
        ExtCall.launch p.num_programs]
      = [ExtCall.warmup (nextPow2 n_cols) (numStages caps) (numWraps (nextPow2 n_cols)),
         ExtCall.launch 0]
    rw [hnp]
  · intro E inp out ist ost
    rw [hnp]
    rfl

theorem zero_rows_behavior_witness :
    LaunchPlan.num_programs ⟨1, 4, 2, 0⟩ = 0
    ∧ softmaxCalls ⟨1, 100000, 100, 32⟩ (fun _ _ _ => ⟨1, 1⟩) 0 1
        = [.warmup (nextPow2 1) (numStages ⟨1, 100000, 100, 32⟩) (numWraps (nextPow2 1)),
           .launch 0]
    ∧ ∀ (E : Val → Val) (inp out : Mem) (ist ost : Nat),
        runKernel E inp ist ost 0 1 (LaunchPlan.block_size ⟨1, 4, 2, 0⟩)
          (LaunchPlan.num_programs ⟨1, 4, 2, 0⟩) out = out :=
  zero_rows_behavior ⟨1, 100000, 100, 32⟩ (fun _ _ _ => ⟨1, 1⟩) 1 ⟨1, 4, 2, 0⟩ rfl

/-- The sum over the padded block equals the sum over the unpadded lanes:
each masked lane contributes `exp(-inf) = 0`. -/
theorem padRow_sum_eq (E : Val → Val) (row : List Val) (B : Nat) (m : Cell)
    (h : row.length ≤ B) :
    ((padRow row B).map (expSub E m)).sum = ((row.map some).map (expSub E m)).sum := by
  rw [padRow_append row B h, List.map_append,
    show (List.replicate (B - row.length) (none : Cell)).map (expSub E m)
      = List.replicate (B - row.length) 0 by rw [List.map_replicate, expSub_none],
    List.sum_append, List.sum_replicate, smul_zero, add_zero]

/-- Every address of the strided masked access pattern stays inside the
`n * st` cells of a buffer of `n` rows with stride `st ≥ nc`. -/
theorem strided_addrs_bound (st n nc i s : Nat) (hst : nc ≤ st) :
    ∀ a ∈ (rowLoop i s n).flatMap
        (fun r => (List.range nc).map (fun j => r * st + j)),
      a < n * st := by
  intro a ha
  obtain ⟨r, hr, ha2⟩ := List.mem_flatMap.mp ha
  obtain ⟨j, hj, rfl⟩ := List.mem_map.mp ha2
  have hrn : r < n := rowLoop_lt i s n r hr
  have hjn : j < nc := List.mem_range.mp hj
  have h1 : (r + 1) * st ≤ n * st := Nat.mul_le_mul_right st (by omega)
  have h2 : r * st + st = (r + 1) * st := by ring
  omega

/-- C6: padding lanes (`col_offset ≥ n_cols`) are loaded as `-inf`, so they
contribute neither to the block max nor to the normalizing sum, the masked
store suppresses them so the stored row has exactly `n_cols` elements, and
every address the instance reads or writes lies inside the respective
buffer. -/
theorem masked_lanes_inert (E : Val → Val) (row : List Val) (B : Nat)
    (hB : row.length ≤ B) (in_stride out_stride n_rows n_cols i s : Nat)
    (hin : n_cols ≤ in_stride) (hout : n_cols ≤ out_stride) :
    blockMax (padRow row B) = blockMax (row.map some)
    ∧ ((padRow row B).map (expSub E (blockMax (padRow row B)))).sum
        = ((row.map some).map (expSub E (blockMax (padRow row B)))).sum
    ∧ kernelRow E row B = kernelRow E row row.length
    ∧ (kernelRow E row B).length = row.length
    ∧ (∀ a ∈ instReadAddrs in_stride n_rows n_cols i s, a < n_rows * in_stride)
    ∧ (∀ a ∈ instWriteAddrs out_stride n_rows n_cols i s, a < n_rows * out_stride) :=
  ⟨blockMax_pad row B hB,
   padRow_sum_eq E row B (blockMax (padRow row B)) hB,
   kernelRow_drop_pad E row B hB,
   kernelRow_length E row B hB,
   strided_addrs_bound in_stride n_rows n_cols i s hin,
   strided_addrs_bound out_stride n_rows n_cols i s hout⟩

theorem masked_lanes_inert_witness :
    blockMax (padRow [3, 7] 4) = blockMax ([3, 7].map some)
    ∧ ((padRow [3, 7] 4).map (expSub wE (blockMax (padRow [3, 7] 4)))).sum
        = (([3, 7].map some).map (expSub wE (blockMax (padRow [3, 7] 4)))).sum
    ∧ kernelRow wE [3, 7] 4 = kernelRow wE [3, 7] (List.length [3, 7])
    ∧ (kernelRow wE [3, 7] 4).length = List.length [3, 7]
    ∧ (∀ a ∈ instReadAddrs 3 2 2 0 1, a < 2 * 3)
    ∧ (∀ a ∈ instWriteAddrs 3 2 2 0 1, a < 2 * 3) :=
  masked_lanes_inert wE [3, 7] 4 (by decide) 3 3 2 2 0 1 (by decide) (by decide)

/-- C10: the kernel never writes a column offset at or beyond `n_cols`: in a
padded layout (`out_stride > n_cols`) the padding cells of the freshly
allocated output buffer keep the values the allocation produced. -/
theorem padding_untouched (E : Val → Val) (caps : DeviceCapabilities)
    (fp : Nat → Nat → Nat → KernelFootprint) (inp out : Mem)
    (in_stride out_stride n_rows n_cols : Nat) (p : LaunchPlan) (res : Mem)
    (hplan : softmaxPlan caps fp n_rows n_cols = .ok p)
    (hres : softmaxExec E caps fp inp in_stride out_stride n_rows n_cols out = .ok res)
    (r c : Nat) (hc1 : n_cols ≤ c) (hc2 : c < out_stride) :
    res (r * out_stride + c) = out (r * out_stride + c) := by
  have hexec : res = runKernel E inp in_stride out_stride n_rows n_cols
      p.block_size p.num_programs out := by
    unfold softmaxExec at hres
    rw [hplan] at hres
    simp only [Except.map] at hres
    exact (Except.ok.inj hres).symm
  have hB : n_cols ≤ p.block_size := by
    obtain ⟨_, _, hp⟩ := softmaxPlan_ok_iff caps fp n_rows n_cols p hplan
    rw [hp]
    exact nextPow2_ge n_cols
  subst hexec
  apply runKernel_frame E inp in_stride out_stride n_rows n_cols p.block_size
    p.num_programs out hB
  intro r' _
  rcases Nat.lt_trichotomy r' r with h | h | h
  · right
    have h1 : (r' + 1) * out_stride ≤ r * out_stride :=
      Nat.mul_le_mul_right out_stride (by omega)
    have h2 : r' * out_stride + out_stride = (r' + 1) * out_stride := by ring
    omega
  · subst h
    right
    omega
  · left
    have h1 : (r + 1) * out_stride ≤ r' * out_stride :=
      Nat.mul_le_mul_right out_stride (by omega)
    have h2 : r * out_stride + out_stride = (r + 1) * out_stride := by ring
    omega

theorem padding_untouched_witness :
    runKernel wE wInp 3 3 2 2 2 2 wOut (1 * 3 + 2) = wOut (1 * 3 + 2) :=
  padding_untouched wE wCaps wFp wInp wOut 3 3 2 2 ⟨2, 4, 2, 2⟩
    (runKernel wE wInp 3 3 2 2 2 2 wOut) rfl rfl 1 2 (by decide) (by decide)

end TLFSoftmax
